import Mathlib

/-!
Verification of the code-archaeology backend analysis engine.

Shallow embedding of the pure computational core of the repository:
the commit classifier (src/services/classification.ts), the file-metric
normalization and scoring (src/services/metrics.ts), the ownership share
computation (src/services/ownership.ts), the complexity-snapshot sampler
(src/services/complexity.ts), the bus-factor insight loop
(src/services/insights.ts), the quality grader (src/services/quality.ts),
the orchestration control flow (src/services/analysis.ts), the
insert-or-ignore persistence of commits and file changes
(src/lib/commits.ts) and the analysis-run status transition
(src/lib/analysisRuns.ts).

Numbers: JavaScript numbers are modelled as ℚ (the values involved are
small integers and 4-decimal fixed-point quantities, all exactly
representable); counts are ℕ; configuration integers that may be
negative are ℤ.  `Number(x.toFixed(4))` is modelled as
round-to-nearest at 4 decimal places.  `Date`/`now()` values are taken
as abstract parameters.
-/

namespace CodeArch

/-! ## Commit classifier — src/services/classification.ts -/

/-- One row of the joined `file_changes × commits` history for a repository,
as seen by the metrics and ownership SQL aggregations.  `isRecent` models
the predicate `committed_at >= now() - recentWindowDays` of the recent
window query. -/
structure FileChangeEvent where
  filePath : String
  additions : ℕ
  deletions : ℕ
  classification : String
  isRecent : Bool
deriving DecidableEq

/-- `normalize(value, max)` from metrics.ts. -/
def normalize (value maxv : ℚ) : ℚ :=
  if maxv ≤ 0 then 0 else min (value / maxv) 1

/-- Round to the nearest integer, halves up (`⌊x + 1/2⌋`) — the rounding of
both `Number(x.toFixed(4))` (for the non-negative values stored here) and
JavaScript's `Math.round`.  Written via `Rat.floor` so that concrete values
evaluate by kernel reduction; equal to Mathlib's `round` by
`jsRound_eq_round`. -/
def jsRound (x : ℚ) : ℤ := Rat.floor (x + 1 / 2)

theorem jsRound_eq_round (x : ℚ) : jsRound x = round x := by
  rw [round_eq]
  rfl

/-- `Number(value.toFixed(4))`: round to 4 decimal places. -/
def round4 (x : ℚ) : ℚ := (jsRound (x * 10000) : ℚ) / 10000

theorem round4_eq (x : ℚ) : round4 x = (round (x * 10000) : ℚ) / 10000 := by
  unfold round4
  rw [jsRound_eq_round]

/-- Distinct file paths of the history (SQL `GROUP BY fc.file_path`). -/
def filePaths (l : List FileChangeEvent) : List String :=
  (l.map (·.filePath)).dedup

/-- `COUNT(*)` per file. -/
def touchesOf (l : List FileChangeEvent) (f : String) : ℕ :=
  (l.filter (·.filePath = f)).length

/-- `SUM(additions + deletions)` per file. -/
def churnOf (l : List FileChangeEvent) (f : String) : ℕ :=
  ((l.filter (·.filePath = f)).map (fun c => c.additions + c.deletions)).sum

/-- `SUM(CASE WHEN classification IN ('fix','bugfix') THEN 1 ELSE 0 END)`. -/
def bugfixTouchesOf (l : List FileChangeEvent) (f : String) : ℕ :=
  ((l.filter (·.filePath = f)).filter
    (fun c => c.classification = "fix" ∨ c.classification = "bugfix")).length

/-- Recent-window `COUNT(*)` per file. -/
def recentTouchesOf (l : List FileChangeEvent) (f : String) : ℕ :=
  ((l.filter (·.filePath = f)).filter (·.isRecent)).length

/-- Recent-window `SUM(additions + deletions)` per file. -/
def recentChurnOf (l : List FileChangeEvent) (f : String) : ℕ :=
  (((l.filter (·.filePath = f)).filter (·.isRecent)).map
    (fun c => c.additions + c.deletions)).sum

/-- One `FileMetricInput` of metrics.ts (the `last_touched_at` timestamp is
not modelled: no score depends on it). -/
structure FileMetricInput where
  filePath : String
  touches : ℕ
  churn : ℕ
  bugfixTouches : ℕ
  recentTouches : ℕ
  recentChurn : ℕ
deriving DecidableEq

/-- The `inputs` array of `computeFileMetrics`: the joined aggregation rows,
with missing recent rows defaulted to zero (here the recent aggregates are
computed from the same event list, so a file with no recent events gets 0). -/
def metricInputs (l : List FileChangeEvent) : List FileMetricInput :=
  (filePaths l).map (fun f =>
    ⟨f, touchesOf l f, churnOf l f, bugfixTouchesOf l f,
     recentTouchesOf l f, recentChurnOf l f⟩)

/-- `Math.max(...)` over a list of counts. -/
def listMax (l : List ℕ) : ℕ := l.foldr max 0

/-- `input.touches > 0 ? input.bugfixTouches / input.touches : 0`. -/
def bugfixRatioOf (i : FileMetricInput) : ℚ :=
  if 0 < i.touches then (i.bugfixTouches : ℚ) / (i.touches : ℚ) else 0

/-- `0.6 * normalize(touches, maxTouches) + 0.4 * normalize(churn, maxChurn)`. -/
def hotspotScoreOf (i : FileMetricInput) (maxTouches maxChurn : ℕ) : ℚ :=
  0.6 * normalize (i.touches : ℚ) (maxTouches : ℚ) +
    0.4 * normalize (i.churn : ℚ) (maxChurn : ℚ)

/-- `0.5 * normalize(recentTouches, maxRecentTouches)
  + 0.3 * normalize(recentChurn, maxRecentChurn) + 0.2 * bugfixRatio`. -/
def fragilityIndexOf (i : FileMetricInput) (maxRecentTouches maxRecentChurn : ℕ) : ℚ :=
  0.5 * normalize (i.recentTouches : ℚ) (maxRecentTouches : ℚ) +
    0.3 * normalize (i.recentChurn : ℚ) (maxRecentChurn : ℚ) +
    0.2 * bugfixRatioOf i

/-- A persisted `file_metrics` row (scores after `round(...)`). -/
structure FileMetricRow where
  filePath : String
  touches : ℕ
  churn : ℕ
  hotspotScore : ℚ
  fragilityIndex : ℚ
  bugfixRate : ℚ
deriving DecidableEq

/-- The rows `computeFileMetrics` upserts for a repository whose history is
`l` (the field `bugfixRate` is the source's `bugfix_ratio`). -/
def computeFileMetricRows (l : List FileChangeEvent) : List FileMetricRow :=
  let inputs := metricInputs l
  let maxTouches := listMax (inputs.map (·.touches))
  let maxChurn := listMax (inputs.map (·.churn))
  let maxRecentTouches := listMax (inputs.map (·.recentTouches))
  let maxRecentChurn := listMax (inputs.map (·.recentChurn))
  inputs.map (fun i =>
    ⟨i.filePath, i.touches, i.churn,
     round4 (hotspotScoreOf i maxTouches maxChurn),
     round4 (fragilityIndexOf i maxRecentTouches maxRecentChurn),
     round4 (bugfixRatioOf i)⟩)

theorem normalize_nonneg (v m : ℚ) (hv : 0 ≤ v) : 0 ≤ normalize v m := by
  unfold normalize
  split
  · exact le_refl 0
  · rename_i h
    push_neg at h
    exact le_min (div_nonneg hv h.le) zero_le_one

theorem normalize_le_one (v m : ℚ) : normalize v m ≤ 1 := by
  unfold normalize
  split
  · exact zero_le_one
  · exact min_le_right _ _

theorem round4_mem_unit (x : ℚ) (h0 : 0 ≤ x) (h1 : x ≤ 1) :
    0 ≤ round4 x ∧ round4 x ≤ 1 := by
  have hr := abs_sub_round (x * 10000)
  rw [abs_le] at hr
  have hlow : (-1 : ℚ) < (round (x * 10000) : ℚ) := by nlinarith [hr.1, hr.2]
  have hhigh : (round (x * 10000) : ℚ) < 10001 := by nlinarith [hr.1, hr.2]
  have hlow' : (0 : ℤ) ≤ round (x * 10000) := by
    have : (-1 : ℤ) < round (x * 10000) := by exact_mod_cast hlow
    omega
  have hhigh' : round (x * 10000) ≤ (10000 : ℤ) := by
    have : round (x * 10000) < (10001 : ℤ) := by exact_mod_cast hhigh
    omega
  constructor
  · rw [round4_eq]
    positivity
  · rw [round4_eq]
    rw [div_le_one (by norm_num)]
    exact_mod_cast hhigh'

theorem le_listMax {a : ℕ} {l : List ℕ} (h : a ∈ l) : a ≤ listMax l := by
  induction l with
  | nil => cases h
  | cons x t ih =>
      rcases List.mem_cons.mp h with rfl | hm
      · exact le_max_left _ _
      · exact le_trans (ih hm) (le_max_right _ _)

theorem bugfixRatio_mem_unit (i : FileMetricInput) (hle : i.bugfixTouches ≤ i.touches) :
    0 ≤ bugfixRatioOf i ∧ bugfixRatioOf i ≤ 1 := by
  unfold bugfixRatioOf
  split
  · rename_i h
    have ht : (0 : ℚ) < (i.touches : ℚ) := by exact_mod_cast h
    constructor
    · positivity
    · rw [div_le_one ht]
      exact_mod_cast hle
  · exact ⟨le_refl 0, zero_le_one⟩

theorem metricInput_bugfix_le_touches (l : List FileChangeEvent) (i : FileMetricInput)
    (h : i ∈ metricInputs l) : i.bugfixTouches ≤ i.touches := by
  unfold metricInputs at h
  rcases List.mem_map.mp h with ⟨f, _, rfl⟩
  exact List.length_filter_le _ _

theorem metricInput_touches_pos (l : List FileChangeEvent) (i : FileMetricInput)
    (h : i ∈ metricInputs l) : 0 < i.touches := by
  unfold metricInputs at h
  rcases List.mem_map.mp h with ⟨f, hf, rfl⟩
  unfold filePaths at hf
  rcases List.mem_map.mp (List.dedup_subset _ hf) with ⟨c, hc, hcf⟩
  have : c ∈ l.filter (·.filePath = f) := by
    rw [List.mem_filter]
    exact ⟨hc, by simp [hcf]⟩
  have := List.length_pos_of_mem this
  simpa [touchesOf] using this

/-- Claim C2: for every non-empty history, every hotspot score and fragility
index computed by `computeFileMetrics` lies in [0,1]; a file whose touch
count equals the repository maximum has `normalize(touches, maxTouches) = 1`
exactly; and normalization by a zero maximum yields 0. -/
theorem fileMetric_scores_bounded (l : List FileChangeEvent) (_hne : l ≠ []) :
    (∀ row ∈ computeFileMetricRows l,
        0 ≤ row.hotspotScore ∧ row.hotspotScore ≤ 1 ∧
        0 ≤ row.fragilityIndex ∧ row.fragilityIndex ≤ 1) ∧
    (∀ row ∈ computeFileMetricRows l,
        row.touches = listMax ((metricInputs l).map (·.touches)) →
        normalize (row.touches : ℚ)
          ((listMax ((metricInputs l).map (·.touches))) : ℚ) = 1) ∧
    (∀ v : ℚ, normalize v 0 = 0) := by
  refine ⟨?_, ?_, fun v => by simp [normalize]⟩
  · intro row hrow
    unfold computeFileMetricRows at hrow
    rcases List.mem_map.mp hrow with ⟨i, hi, rfl⟩
    have hb := metricInput_bugfix_le_touches l i hi
    have hbr := bugfixRatio_mem_unit i hb
    have hh0 : 0 ≤ hotspotScoreOf i (listMax ((metricInputs l).map (·.touches)))
        (listMax ((metricInputs l).map (·.churn))) := by
      unfold hotspotScoreOf
      have n1 := normalize_nonneg (i.touches : ℚ)
        ((listMax ((metricInputs l).map (·.touches))) : ℚ) (by positivity)
      have n2 := normalize_nonneg (i.churn : ℚ)
        ((listMax ((metricInputs l).map (·.churn))) : ℚ) (by positivity)
      nlinarith
    have hh1 : hotspotScoreOf i (listMax ((metricInputs l).map (·.touches)))
        (listMax ((metricInputs l).map (·.churn))) ≤ 1 := by
      unfold hotspotScoreOf
      have n1 := normalize_le_one (i.touches : ℚ)
        ((listMax ((metricInputs l).map (·.touches))) : ℚ)
      have n2 := normalize_le_one (i.churn : ℚ)
        ((listMax ((metricInputs l).map (·.churn))) : ℚ)
      have m1 := normalize_nonneg (i.touches : ℚ)
        ((listMax ((metricInputs l).map (·.touches))) : ℚ) (by positivity)
      have m2 := normalize_nonneg (i.churn : ℚ)
        ((listMax ((metricInputs l).map (·.churn))) : ℚ) (by positivity)
      nlinarith
    have hf0 : 0 ≤ fragilityIndexOf i (listMax ((metricInputs l).map (·.recentTouches)))
        (listMax ((metricInputs l).map (·.recentChurn))) := by
      unfold fragilityIndexOf
      have n1 := normalize_nonneg (i.recentTouches : ℚ)
        ((listMax ((metricInputs l).map (·.recentTouches))) : ℚ) (by positivity)
      have n2 := normalize_nonneg (i.recentChurn : ℚ)
        ((listMax ((metricInputs l).map (·.recentChurn))) : ℚ) (by positivity)
      nlinarith [hbr.1]
    have hf1 : fragilityIndexOf i (listMax ((metricInputs l).map (·.recentTouches)))
        (listMax ((metricInputs l).map (·.recentChurn))) ≤ 1 := by
      unfold fragilityIndexOf
      have n1 := normalize_le_one (i.recentTouches : ℚ)
        ((listMax ((metricInputs l).map (·.recentTouches))) : ℚ)
      have n2 := normalize_le_one (i.recentChurn : ℚ)
        ((listMax ((metricInputs l).map (·.recentChurn))) : ℚ)
      have m1 := normalize_nonneg (i.recentTouches : ℚ)
        ((listMax ((metricInputs l).map (·.recentTouches))) : ℚ) (by positivity)
      have m2 := normalize_nonneg (i.recentChurn : ℚ)
        ((listMax ((metricInputs l).map (·.recentChurn))) : ℚ) (by positivity)
      nlinarith [hbr.1, hbr.2]
    have r1 := round4_mem_unit _ hh0 hh1
    have r2 := round4_mem_unit _ hf0 hf1
    exact ⟨r1.1, r1.2, r2.1, r2.2⟩
  · intro row hrow hmax
    unfold computeFileMetricRows at hrow
    rcases List.mem_map.mp hrow with ⟨i, hi, rfl⟩
    simp only at hmax
    have hpos : 0 < i.touches := metricInput_touches_pos l i hi
    have hmpos : (0 : ℚ) < ((listMax ((metricInputs l).map (·.touches))) : ℚ) := by
      have : 0 < listMax ((metricInputs l).map (·.touches)) := by
        have : i.touches ∈ (metricInputs l).map (·.touches) :=
          List.mem_map_of_mem _ hi
        exact lt_of_lt_of_le hpos (le_listMax this)
      exact_mod_cast this
    simp only [hmax]
    unfold normalize
    rw [if_neg (not_le.mpr hmpos), div_self (ne_of_gt hmpos)]
    simp

/-- Claim C2, witness: the bound and the exact-1 normalization instantiated
on a concrete two-file history. -/
theorem fileMetric_scores_bounded_witness :
    (∀ row ∈ computeFileMetricRows
        [⟨"a.js", 3, 1, "fix", true⟩, ⟨"b.js", 2, 0, "feat", false⟩,
         ⟨"a.js", 0, 4, "docs", true⟩],
        0 ≤ row.hotspotScore ∧ row.hotspotScore ≤ 1 ∧
        0 ≤ row.fragilityIndex ∧ row.fragilityIndex ≤ 1) ∧
    (∀ row ∈ computeFileMetricRows
        [⟨"a.js", 3, 1, "fix", true⟩, ⟨"b.js", 2, 0, "feat", false⟩,
         ⟨"a.js", 0, 4, "docs", true⟩],
        row.touches = listMax ((metricInputs
          [⟨"a.js", 3, 1, "fix", true⟩, ⟨"b.js", 2, 0, "feat", false⟩,
           ⟨"a.js", 0, 4, "docs", true⟩]).map (·.touches)) →
        normalize (row.touches : ℚ)
          ((listMax ((metricInputs
            [⟨"a.js", 3, 1, "fix", true⟩, ⟨"b.js", 2, 0, "feat", false⟩,
             ⟨"a.js", 0, 4, "docs", true⟩]).map (·.touches))) : ℚ) = 1) := by
  have h := fileMetric_scores_bounded
    [⟨"a.js", 3, 1, "fix", true⟩, ⟨"b.js", 2, 0, "feat", false⟩,
     ⟨"a.js", 0, 4, "docs", true⟩] (by decide)
  exact ⟨h.1, h.2.1⟩

/-! ## Ownership — src/services/ownership.ts and src/lib/ownership.ts -/

/-- One row of the ownership SQL aggregation
(`GROUP BY fc.file_path, c.author_name, c.author_email`); `touches` is a
`COUNT(*)`, hence at least 1 for a row the query returns. -/
structure OwnershipAggRow where
  filePath : String
  authorName : Option String
  authorEmail : Option String
  touches : ℕ
  churn : ℕ
deriving DecidableEq

/-- The whitespace set JavaScript's `String.prototype.trim` removes
(ASCII part: space, tab, line feed, carriage return, vertical tab,
form feed). -/
def jsIsWhitespace (c : Char) : Bool :=
  (c = ' ' ∨ c = '\t' ∨ c = '\n' ∨ c = '\r' ∨ c = '\x0b' ∨ c = '\x0c')

/-- JavaScript `s.trim()`: strip leading and trailing whitespace. -/
def jsTrim (s : String) : String :=
  String.mk (((s.data.dropWhile jsIsWhitespace).reverse.dropWhile
    jsIsWhitespace).reverse)

/-- `row.author_name?.trim() || "Unknown"`. -/
def normAuthorName (n : Option String) : String :=
  match n with
  | none => "Unknown"
  | some s => if jsTrim s = "" then "Unknown" else jsTrim s

/-- `row.author_email?.trim() || null`. -/
def normAuthorEmail (e : Option String) : Option String :=
  match e with
  | none => none
  | some s => if jsTrim s = "" then none else some (jsTrim s)

/-- `contributorKey(name, email)` from ownership.ts. -/
def contributorKey (name : String) (email : Option String) : String :=
  name ++ "|" ++ email.getD ""

/-- The `totals` map of `computeOwnership`: total touches per file. -/
def fileTotals (rows : List OwnershipAggRow) (f : String) : ℕ :=
  ((rows.filter (·.filePath = f)).map (·.touches)).sum

/-- A `FileOwnershipInsert` of src/lib/ownership.ts.  The contributor id is
modelled by the contributor key: `upsertContributors` inserts every key and
reads the ids back, so every key resolves; the id's actual value plays no
role in the share computation. -/
structure FileOwnershipRow where
  filePath : String
  contributorId : String
  touches : ℕ
  churn : ℕ
  contributionShare : ℚ
deriving DecidableEq

/-- The `ownershipRows` array of `computeOwnership`: per aggregation row, the
share is `touches / totalTouches` for its file (0 when the total is 0),
stored as `Number(share.toFixed(4))`. -/
def computeOwnershipRows (rows : List OwnershipAggRow) : List FileOwnershipRow :=
  rows.map (fun row =>
    let name := normAuthorName row.authorName
    let email := normAuthorEmail row.authorEmail
    let totalTouches := fileTotals rows row.filePath
    let share : ℚ := if 0 < totalTouches then (row.touches : ℚ) / (totalTouches : ℚ) else 0
    ⟨row.filePath, contributorKey name email, row.touches, row.churn, round4 share⟩)

/-- The normalized contributor identity of an aggregation row — the key
under which `upsertContributors` deduplicates, and (via the contributor id)
the conflict key of `upsertFileOwnership`. -/
def normKey (r : OwnershipAggRow) : String :=
  contributorKey (normAuthorName r.authorName) (normAuthorEmail r.authorEmail)

/-- One row of `upsertFileOwnership`'s
`INSERT … ON CONFLICT (repository_id, file_path, contributor_id) DO UPDATE
SET touches, churn, contribution_share, updated_at`: a row whose key is
already present adds no new row, it overwrites the counters of the existing
one.  (Two colliding rows inside a single 500-row statement make the
database reject that statement outright; across statements the later update
wins.  Either way colliding rows never persist as separate rows; the model
applies the upsert row by row, the across-statement outcome.) -/
def upsertOwnershipRow (table : List FileOwnershipRow) (r : FileOwnershipRow) :
    List FileOwnershipRow :=
  if table.any (fun t => t.filePath = r.filePath ∧ t.contributorId = r.contributorId)
  then
    table.map (fun t =>
      if t.filePath = r.filePath ∧ t.contributorId = r.contributorId
      then ⟨t.filePath, t.contributorId, r.touches, r.churn, r.contributionShare⟩
      else t)
  else table ++ [r]

/-- `upsertFileOwnership(rows)` applied to a table state. -/
def upsertFileOwnership (rows : List FileOwnershipRow)
    (table : List FileOwnershipRow) : List FileOwnershipRow :=
  rows.foldl upsertOwnershipRow table

/-- The FileOwnership rows persisted by an ownership pass: `computeOwnership`
deletes every row of the repository, then upserts the `filteredRows` (those
whose contributor resolved, `row.contributorId` truthy) into the emptied
table. -/
def persistedOwnershipRows (rows : List OwnershipAggRow) : List FileOwnershipRow :=
  upsertFileOwnership
    ((computeOwnershipRows rows).filter (fun r => r.contributorId ≠ "")) []

theorem abs_round4_sub (q : ℚ) : |round4 q - q| ≤ 1 / 20000 := by
  have h := abs_sub_round (q * 10000)
  rw [round4_eq]
  have : (round (q * 10000) : ℚ) / 10000 - q = -((q * 10000 - round (q * 10000)) / 10000) := by
    ring
  rw [this, abs_neg, abs_div, abs_of_pos (show (0:ℚ) < 10000 by norm_num)]
  rw [div_le_div_iff₀ (by norm_num) (by norm_num)]
  nlinarith [h]

theorem sum_round4_close (l : List ℚ) :
    |(l.map round4).sum - l.sum| ≤ (l.length : ℚ) / 20000 := by
  induction l with
  | nil => simp
  | cons x t ih =>
      simp only [List.map_cons, List.sum_cons, List.length_cons]
      have tri : |round4 x + (t.map round4).sum - (x + t.sum)| ≤
          |round4 x - x| + |(t.map round4).sum - t.sum| := by
        have : round4 x + (t.map round4).sum - (x + t.sum) =
            (round4 x - x) + ((t.map round4).sum - t.sum) := by ring
        rw [this]
        exact abs_add _ _
      have h1 := abs_round4_sub x
      have : ((t.length + 1 : ℕ) : ℚ) / 20000 = (t.length : ℚ) / 20000 + 1 / 20000 := by
        push_cast
        ring
      rw [this]
      linarith

theorem contributorKey_ne_empty (name : String) (email : Option String) :
    contributorKey name email ≠ "" := by
  unfold contributorKey
  intro h
  have h0 := congrArg String.length h
  rw [String.length_append, String.length_append] at h0
  have h1 : ("" : String).length = 0 := rfl
  have h2 : ("|" : String).length = 1 := rfl
  omega

theorem upsertFileOwnership_no_conflict :
    ∀ (l table : List FileOwnershipRow),
      (∀ r ∈ l, ∀ t ∈ table,
        ¬(t.filePath = r.filePath ∧ t.contributorId = r.contributorId)) →
      l.Pairwise (fun a b =>
        ¬(a.filePath = b.filePath ∧ a.contributorId = b.contributorId)) →
      upsertFileOwnership l table = table ++ l := by
  intro l
  induction l with
  | nil =>
      intro table _ _
      simp [upsertFileOwnership]
  | cons r rest ih =>
      intro table hcross hpw
      unfold upsertFileOwnership
      rw [List.foldl_cons]
      have hnone : (table.any (fun t =>
          t.filePath = r.filePath ∧ t.contributorId = r.contributorId)) = false := by
        rw [List.any_eq_false]
        intro t ht
        simpa using hcross r (List.mem_cons_self _ _) t ht
      have hstep : upsertOwnershipRow table r = table ++ [r] := by
        unfold upsertOwnershipRow
        rw [hnone]
        rfl
      rw [hstep]
      have hpw' := List.pairwise_cons.mp hpw
      have hcross' : ∀ q ∈ rest, ∀ t ∈ table ++ [r],
          ¬(t.filePath = q.filePath ∧ t.contributorId = q.contributorId) := by
        intro q hq t ht
        rcases List.mem_append.mp ht with ht | ht
        · exact hcross q (List.mem_cons_of_mem _ hq) t ht
        · have hteq := List.mem_singleton.mp ht
          subst hteq
          exact hpw'.1 q hq
      have hrest := ih (table ++ [r]) hcross' hpw'.2
      unfold upsertFileOwnership at hrest
      rw [hrest, List.append_assoc]
      rfl

/-- When no two insert rows share the `(file_path, contributor_id)` key, the
upsert into the emptied table persists exactly the insert array. -/
theorem persistedOwnershipRows_eq (rows : List OwnershipAggRow)
    (hdistinct : rows.Pairwise (fun a b =>
      a.filePath = b.filePath → normKey a ≠ normKey b)) :
    persistedOwnershipRows rows = computeOwnershipRows rows := by
  unfold persistedOwnershipRows
  have hfilter : (computeOwnershipRows rows).filter (fun r => r.contributorId ≠ "") =
      computeOwnershipRows rows := by
    apply List.filter_eq_self.mpr
    intro r hr
    unfold computeOwnershipRows at hr
    rcases List.mem_map.mp hr with ⟨row, _, rfl⟩
    simpa using contributorKey_ne_empty _ _
  rw [hfilter]
  have hpw : (computeOwnershipRows rows).Pairwise
      (fun a b => ¬(a.filePath = b.filePath ∧ a.contributorId = b.contributorId)) := by
    unfold computeOwnershipRows
    rw [List.pairwise_map]
    exact List.Pairwise.imp (fun hab hcon => hab hcon.1 hcon.2) hdistinct
  have h := upsertFileOwnership_no_conflict (computeOwnershipRows rows) []
    (by
      intro r _ t ht
      cases ht) hpw
  simpa using h

theorem sum_map_div {α : Type} (l : List α) (g : α → ℚ) (c : ℚ) :
    (l.map (fun x => g x / c)).sum = (l.map g).sum / c := by
  induction l with
  | nil => simp
  | cons x t ih =>
      rw [List.map_cons, List.sum_cons, List.map_cons, List.sum_cons, ih]
      ring

/-- Two aggregation rows of one file whose raw author identities — "bob "
with a trailing space and "bob", both without email — normalize to the same
contributor key, hence the same contributor id. -/
def collidingOwnershipRows : List OwnershipAggRow :=
  [⟨"a.js", some "bob ", none, 1, 3⟩, ⟨"a.js", some "bob", none, 2, 0⟩]



/-- Claim C3, counterexample: the aggregation groups by the **raw** author
name/email, but the contributor id is keyed by the **normalized** identity,
so two rows of one file can carry the same `(file_path, contributor_id)`
conflict key; `upsertFileOwnership`'s `ON CONFLICT … DO UPDATE` then
collapses them into a single persisted row.  Here "bob " and "bob" collide:
the file has 3 touches split 1/2, the rounded shares are 0.3333 and 0.6667,
but only one row (share 0.6667) is persisted — the sum is 0.6667, outside
the claimed 0.0001 × 1 tolerance, although every row has at least one touch
(the claim's precondition). -/
theorem ownership_shares_collision_counterexample :
    (∀ r ∈ collidingOwnershipRows, 1 ≤ r.touches) ∧
    (∃ r ∈ collidingOwnershipRows, r.filePath = "a.js") ∧
    persistedOwnershipRows collidingOwnershipRows =
      [⟨"a.js", "bob|", 2, 0, (0.6667 : ℚ)⟩] ∧
    ¬(|((((persistedOwnershipRows collidingOwnershipRows).filter
          (·.filePath = "a.js")).map (·.contributionShare)).sum) - 1| ≤
        (0.0001 : ℚ) *
          (((persistedOwnershipRows collidingOwnershipRows).filter
            (·.filePath = "a.js")).length : ℚ)) := by
  have hval : round4 ((2 : ℚ) / 3) = 0.6667 := by
    rw [round4_eq]
    norm_num [round_eq]
  have hpersist : persistedOwnershipRows collidingOwnershipRows =
      [⟨"a.js", "bob|", 2, 0, round4 ((2 : ℚ) / 3)⟩] := by
    simp +decide [persistedOwnershipRows, computeOwnershipRows,
      collidingOwnershipRows, upsertFileOwnership, upsertOwnershipRow,
      fileTotals, normAuthorName, normAuthorEmail, jsTrim, jsIsWhitespace,
      contributorKey, normKey]
    norm_num
  refine ⟨by decide, by decide, by rw [hpersist, hval], ?_⟩
  rw [hpersist]
  simp +decide [List.filter]
  have hshare := abs_round4_sub ((2 : ℚ) / 3)
  rw [abs_le] at hshare
  have hlt : round4 ((2 : ℚ) / 3) - 1 < 0 := by linarith [hshare.2]
  rw [abs_of_neg hlt]
  norm_num
  linarith [hshare.2]

/-- Claim C3 (amended): after an ownership pass, for every file with at
least one recorded touch, **provided no two of the file's aggregation rows
normalize to the same contributor identity** (trimmed name, trimmed
email-or-null — otherwise the `(repository_id, file_path, contributor_id)`
upsert collapses the colliding rows into one and the sum falls short), the
persisted contribution shares of that file sum to 1 within 0.0001 times the
number of contributor rows for the file. -/
theorem ownership_shares_sum_to_one (rows : List OwnershipAggRow) (f : String)
    (htouch : ∀ r ∈ rows, 1 ≤ r.touches)
    (hfile : ∃ r ∈ rows, r.filePath = f)
    (hdistinct : rows.Pairwise (fun a b =>
      a.filePath = b.filePath → normKey a ≠ normKey b)) :
    |((((persistedOwnershipRows rows).filter (·.filePath = f)).map
        (·.contributionShare)).sum) - 1| ≤
      (0.0001 : ℚ) *
        (((persistedOwnershipRows rows).filter (·.filePath = f)).length : ℚ) := by
  rw [persistedOwnershipRows_eq rows hdistinct]
  -- the per-file rows of the output are the mapped per-file rows of the input
  have hcomm : (computeOwnershipRows rows).filter (·.filePath = f) =
      (rows.filter (·.filePath = f)).map (fun row =>
        ⟨row.filePath,
         contributorKey (normAuthorName row.authorName) (normAuthorEmail row.authorEmail),
         row.touches, row.churn,
         round4 (if 0 < fileTotals rows row.filePath
           then (row.touches : ℚ) / (fileTotals rows row.filePath : ℚ) else 0)⟩) := by
    unfold computeOwnershipRows
    rw [List.filter_map]
    rfl
  rw [hcomm]
  set S := rows.filter (·.filePath = f) with hS
  set T := fileTotals rows f with hT
  have hSf : ∀ r ∈ S, r.filePath = f := by
    intro r hr
    have := (List.mem_filter.mp hr).2
    simpa using this
  have hSne : S ≠ [] := by
    rcases hfile with ⟨r, hr, hrf⟩
    intro hnil
    have : r ∈ S := List.mem_filter.mpr ⟨hr, by simp [hrf]⟩
    rw [hnil] at this
    cases this
  have hTpos : 0 < T := by
    rcases List.exists_mem_of_ne_nil S hSne with ⟨r, hr⟩
    have h1 : 1 ≤ r.touches := htouch r (List.mem_filter.mp hr).1
    have : r.touches ∈ S.map (·.touches) := List.mem_map_of_mem _ hr
    have hle : r.touches ≤ (S.map (·.touches)).sum := List.le_sum_of_mem this
    have : T = (S.map (·.touches)).sum := by rw [hT, hS]; rfl
    omega
  -- the mapped shares are round4 of touches/T
  have hmm : ((S.map (fun row =>
      (⟨row.filePath,
        contributorKey (normAuthorName row.authorName) (normAuthorEmail row.authorEmail),
        row.touches, row.churn,
        round4 (if 0 < fileTotals rows row.filePath
          then (row.touches : ℚ) / (fileTotals rows row.filePath : ℚ) else 0)⟩ :
        FileOwnershipRow))).map (·.contributionShare)) =
      (S.map (fun row => (row.touches : ℚ) / (T : ℚ))).map round4 := by
    rw [List.map_map, List.map_map]
    apply List.map_congr_left
    intro r hr
    simp only [Function.comp]
    rw [hSf r hr, ← hT, if_pos hTpos]
  rw [hmm]
  -- the exact shares sum to 1
  have hsum : (S.map (fun row => (row.touches : ℚ) / (T : ℚ))).sum = 1 := by
    rw [sum_map_div S (fun row => (row.touches : ℚ)) (T : ℚ)]
    have hTQ : ((S.map (fun row => (row.touches : ℚ))).sum) = (T : ℚ) := by
      have hmm2 : S.map (fun row => (row.touches : ℚ)) =
          (S.map (·.touches)).map ((↑·) : ℕ → ℚ) := by
        rw [List.map_map]
        rfl
      rw [hmm2, ← Nat.cast_list_sum]
      congr 1
    rw [hTQ, div_self]
    exact_mod_cast hTpos.ne'
  have hclose := sum_round4_close (S.map (fun row => (row.touches : ℚ) / (T : ℚ)))
  rw [hsum] at hclose
  have hlen : ((S.map (fun row => (row.touches : ℚ) / (T : ℚ))).length : ℚ) = (S.length : ℚ) := by
    rw [List.length_map]
  rw [hlen] at hclose
  have hlen2 : (((S.map (fun row =>
      (⟨row.filePath,
        contributorKey (normAuthorName row.authorName) (normAuthorEmail row.authorEmail),
        row.touches, row.churn,
        round4 (if 0 < fileTotals rows row.filePath
          then (row.touches : ℚ) / (fileTotals rows row.filePath : ℚ) else 0)⟩ :
        FileOwnershipRow)))).length : ℚ) = (S.length : ℚ) := by
    rw [List.length_map]
  rw [hlen2]
  have : (0.0001 : ℚ) * (S.length : ℚ) = (S.length : ℚ) / 10000 := by ring
  rw [this]
  have hmono : (S.length : ℚ) / 20000 ≤ (S.length : ℚ) / 10000 := by
    have : (0 : ℚ) ≤ (S.length : ℚ) := by positivity
    linarith
  linarith

/-- Claim C3 (amended), witness: three single-touch rows on one file with
distinct contributor identities; the rounded shares 0.3333 sum to 0.9999,
within 0.0001 × 3 of 1. -/
theorem ownership_shares_sum_to_one_witness :
    |((((persistedOwnershipRows
        [⟨"a.js", some "x", none, 1, 2⟩, ⟨"a.js", some "y", none, 1, 0⟩,
         ⟨"a.js", some "z", none, 1, 5⟩]).filter (·.filePath = "a.js")).map
        (·.contributionShare)).sum) - 1| ≤
      (0.0001 : ℚ) *
        (((persistedOwnershipRows
          [⟨"a.js", some "x", none, 1, 2⟩, ⟨"a.js", some "y", none, 1, 0⟩,
           ⟨"a.js", some "z", none, 1, 5⟩]).filter (·.filePath = "a.js")).length : ℚ) :=
  ownership_shares_sum_to_one
    [⟨"a.js", some "x", none, 1, 2⟩, ⟨"a.js", some "y", none, 1, 0⟩,
     ⟨"a.js", some "z", none, 1, 5⟩] "a.js"
    (by decide) ⟨⟨"a.js", some "x", none, 1, 2⟩, by simp, rfl⟩
    (by
      refine List.Pairwise.cons ?_ (List.Pairwise.cons ?_
        (List.Pairwise.cons ?_ List.Pairwise.nil))
      · intro q hq
        rcases List.mem_cons.mp hq with rfl | hq
        · intro _
          decide
        · rcases List.mem_cons.mp hq with rfl | hq
          · intro _
            decide
          · cases hq
      · intro q hq
        rcases List.mem_cons.mp hq with rfl | hq
        · intro _
          decide
        · cases hq
      · intro q hq
        cases hq)

/-! ## Complexity sampler — src/services/complexity.ts -/

/-- The loop `for (let i = 0; i < arr.length; i += step) if (arr[i]) out.push(arr[i])`
on an array of shas: every `step`-th element, skipping empty strings
(JavaScript truthiness of `sha`).  `fuel` bounds the recursion (each call
consumes at least the head), so `stridePick` uses `fuel = l.length`. -/
def stridePickF (fuel step : ℕ) (l : List String) : List String :=
  match fuel, l with
  | 0, _ => []
  | _ + 1, [] => []
  | fuel + 1, x :: xs =>
      (if x = "" then [] else [x]) ++ stridePickF fuel step (xs.drop (step - 1))

def stridePick (step : ℕ) (l : List String) : List String :=
  stridePickF l.length step l

/-- `Math.ceil(a / b)` for positive integers. -/
def jsCeilDiv (a b : ℕ) : ℕ := (a + b - 1) / b

/-- `if (lastSha && !shas.includes(lastSha)) shas.push(lastSha)`. -/
def appendLast (lastSha : String) (shas : List String) : List String :=
  if lastSha ≠ "" ∧ lastSha ∉ shas then shas ++ [lastSha] else shas

/-- The down-sampling step of `computeComplexitySnapshots`: when the cap is
positive and exceeded, keep an even stride of `Math.ceil(len / max)` and
force the last sha back in. -/
def capSnapshots (lastSha : String) (maxSnapshots : ℤ) (shas : List String) :
    List String :=
  if 0 < maxSnapshots ∧ maxSnapshots.toNat < shas.length then
    appendLast lastSha (stridePick (jsCeilDiv shas.length maxSnapshots.toNat) shas)
  else shas

/-- The sha-selection logic of `computeComplexitySnapshots` (lines 128–164):
`none` when sampling is skipped (non-positive interval, zero cap, or no
commits); otherwise the final `snapshotShas` list.  `allShas` is the
repository's commit shas in ascending `committed_at` order. -/
def selectSnapshotShas (allShas : List String) (snapshotInterval maxSnapshots : ℤ) :
    Option (List String) :=
  if snapshotInterval ≤ 0 ∨ maxSnapshots = 0 then none
  else if allShas.isEmpty then none
  else
    some (capSnapshots (allShas.getLastD "") maxSnapshots
      (appendLast (allShas.getLastD "") (stridePick snapshotInterval.toNat allShas)))

/-- Claim C4, counterexample: with 5 commits, interval 1 and snapshot cap 2,
the initially selected set (5 shas) exceeds the cap, and the down-sampled
result `["a", "d", "e"]` still has 3 elements — it does **not** fit within
the cap of 2 (the stride keeps indices 0 and 3, then the last sha is
appended on top). -/
theorem sampler_can_exceed_cap :
    selectSnapshotShas ["a", "b", "c", "d", "e"] 1 2 = some ["a", "d", "e"] ∧
      2 < (["a", "d", "e"] : List String).length := by
  constructor
  · decide
  · decide

theorem stridePickF_length_le (fuel : ℕ) : ∀ (step : ℕ) (l : List String),
    1 ≤ step → l.length ≤ fuel →
    (stridePickF fuel step l).length ≤ (l.length + step - 1) / step := by
  induction fuel with
  | zero =>
      intro step l _ hf
      simp [stridePickF]
  | succ fuel ih =>
      intro step l hstep hf
      match l with
      | [] => simp [stridePickF]
      | x :: xs =>
          rw [stridePickF]
          rw [List.length_append]
          have hlen : ((if x = "" then [] else [x]) : List String).length ≤ 1 := by
            split <;> simp
          have hdroplen : (xs.drop (step - 1)).length = xs.length - (step - 1) :=
            List.length_drop _ _
          have hdropfuel : (xs.drop (step - 1)).length ≤ fuel := by
            rw [hdroplen]
            have : (x :: xs).length = xs.length + 1 := List.length_cons _ _
            omega
          have hbound := ih step (xs.drop (step - 1)) hstep hdropfuel
          rw [hdroplen] at hbound
          have harith : ((xs.length - (step - 1)) + step - 1) / step + 1 ≤
              ((x :: xs).length + step - 1) / step := by
            rw [List.length_cons]
            rcases Nat.lt_or_ge xs.length step with hc | hc
            · have hzero : xs.length - (step - 1) = 0 ∨
                  xs.length - (step - 1) = 1 := by omega
              have hr : 1 ≤ (xs.length + 1 + step - 1) / step := by
                rw [Nat.one_le_div_iff (by omega)]
                omega
              rcases hzero with hz | hz
              · rw [hz]
                have h0 : (0 + step - 1) / step = 0 := Nat.div_eq_of_lt (by omega)
                rw [h0]
                omega
              · -- xs.length = step, contradicting xs.length < step unless step = 1;
                -- then both divisions are exact
                have hs1 : xs.length = step ∨ step = 1 ∧ xs.length = 1 := by omega
                rcases hs1 with hs1 | ⟨hs1, hs2⟩
                · omega
                · rw [hz, hs1]
                  simp
                  omega
            · have h1 : xs.length - (step - 1) + step - 1 = xs.length := by omega
              rw [h1]
              have h2 : xs.length + 1 + step - 1 = xs.length + step := by omega
              rw [h2]
              have h3 : (xs.length + step) / step = xs.length / step + 1 :=
                Nat.add_div_right _ (by omega)
              omega
          omega

theorem stridePick_length_le (step : ℕ) (hstep : 1 ≤ step) (l : List String) :
    (stridePick step l).length ≤ (l.length + step - 1) / step :=
  stridePickF_length_le l.length step l hstep (le_refl _)

theorem jsCeilDiv_bound (n m : ℕ) (hm : 1 ≤ m) (hn : 1 ≤ n) :
    n ≤ jsCeilDiv n m * m ∧ 1 ≤ jsCeilDiv n m := by
  unfold jsCeilDiv
  have hdm := Nat.div_add_mod (n + m - 1) m
  have hmod := Nat.mod_lt (n + m - 1) (show 0 < m by omega)
  constructor
  · rw [Nat.mul_comm]
    generalize hgen : m * ((n + m - 1) / m) = ms at hdm ⊢
    omega
  · rw [Nat.one_le_div_iff (by omega)]
    omega

theorem getLastD_mem (l : List String) : ∀ d : String, l ≠ [] → l.getLastD d ∈ l := by
  induction l with
  | nil =>
      intro d h
      exact absurd rfl h
  | cons x t ih =>
      intro d _
      cases t with
      | nil => simp [List.getLastD]
      | cons y u =>
          rw [List.getLastD_cons]
          exact List.mem_cons_of_mem _ (ih x (by simp))

theorem appendLast_mem (lastSha : String) (shas : List String) (h : lastSha ≠ "") :
    lastSha ∈ appendLast lastSha shas := by
  unfold appendLast
  split
  · exact List.mem_append_right _ (by simp)
  · rename_i hc
    push_neg at hc
    exact hc h

theorem capSnapshots_mem (lastSha : String) (m : ℤ) (shas : List String)
    (hne : lastSha ≠ "") (hmem : lastSha ∈ shas) :
    lastSha ∈ capSnapshots lastSha m shas := by
  unfold capSnapshots
  split
  · exact appendLast_mem _ _ hne
  · exact hmem

theorem capSnapshots_length (lastSha : String) (m : ℤ) (shas : List String)
    (hm : 0 < m) : (capSnapshots lastSha m shas).length ≤ m.toNat + 1 := by
  unfold capSnapshots
  split
  · rename_i hc
    have hm1 : 1 ≤ m.toNat := by omega
    have hn1 : 1 ≤ shas.length := by omega
    have hcd := jsCeilDiv_bound shas.length m.toNat hm1 hn1
    have hred := stridePick_length_le (jsCeilDiv shas.length m.toNat) hcd.2 shas
    have hfit : (shas.length + jsCeilDiv shas.length m.toNat - 1) /
        jsCeilDiv shas.length m.toNat ≤ m.toNat := by
      rw [Nat.div_le_iff_le_mul_add_pred (by omega)]
      have := hcd.1
      omega
    unfold appendLast
    split
    · rw [List.length_append]
      simp only [List.length_singleton]
      omega
    · omega
  · rename_i hc
    push_neg at hc
    have := hc hm
    omega

/-- Claim C4 (amended): when sampling is not skipped, the final commit's sha
is always in the selected set; when the cap is positive, the selected set
fits within the cap **plus one** — the even stride yields at most
`maxSnapshots` shas, but re-appending the final sha can add one more, so
the cap can be exceeded by exactly one. -/
theorem sampler_includes_last_and_cap_plus_one (allShas : List String)
    (snapshotInterval maxSnapshots : ℤ)
    (hne : allShas ≠ []) (hint : 0 < snapshotInterval) (hcap : maxSnapshots ≠ 0)
    (hsha : ∀ s ∈ allShas, s ≠ "") :
    ∃ r, selectSnapshotShas allShas snapshotInterval maxSnapshots = some r ∧
      allShas.getLastD "" ∈ r ∧
      (0 < maxSnapshots → r.length ≤ maxSnapshots.toNat + 1) := by
  have hlast : allShas.getLastD "" ∈ allShas := getLastD_mem allShas "" hne
  have hlastne : allShas.getLastD "" ≠ "" := hsha _ hlast
  unfold selectSnapshotShas
  rw [if_neg (by push_neg; exact ⟨by omega, hcap⟩), if_neg (by simpa using hne)]
  refine ⟨_, rfl, ?_, ?_⟩
  · exact capSnapshots_mem _ _ _ hlastne
      (appendLast_mem _ _ hlastne)
  · intro hpos
    exact capSnapshots_length _ _ _ hpos

/-- Claim C4 (amended), witness: 3 commits, interval 2, cap 5 — the result
contains the last sha and fits the cap-plus-one bound. -/
theorem sampler_includes_last_witness :
    ∃ r, selectSnapshotShas ["a", "b", "c"] 2 5 = some r ∧
      (["a", "b", "c"] : List String).getLastD "" ∈ r ∧
      ((0 : ℤ) < 5 → r.length ≤ (5 : ℤ).toNat + 1) :=
  sampler_includes_last_and_cap_plus_one ["a", "b", "c"] 2 5
    (by decide) (by decide) (by decide) (by decide)

/-! ## Insight generator — src/services/insights.ts -/

/-- One row of the ownership-join query of `generateInsights`
(`file_ownership ⋈ contributors ⋈ file_metrics`, ordered by file path and
descending contribution share). -/
structure BusOwnershipRow where
  filePath : String
  contributionShare : ℚ
  contributorName : String
  touches : ℕ
deriving DecidableEq

/-- A generated insight (`InsightInput` of src/lib/insights.ts). -/
structure InsightRec where
  category : String
  severity : String
  message : String
deriving DecidableEq

/-- `formatPercent`: `Math.round(value * 100) + "%"`. -/
def formatPercent (value : ℚ) : String :=
  toString (round (value * 100)) ++ "%"

/-- The row qualifies for a bus-factor insight: touches at or above the touch
threshold and share at or above the share threshold. -/
def busQualifies (touchThr : ℤ) (shareThr : ℚ) (r : BusOwnershipRow) : Bool :=
  touchThr ≤ (r.touches : ℤ) ∧ shareThr ≤ r.contributionShare

/-- The insight pushed for a qualifying top-contributor row: severity "risk"
iff the share is at least 0.85, otherwise "warning". -/
def mkBusInsight (r : BusOwnershipRow) : InsightRec :=
  ⟨"bus_factor",
   if (0.85 : ℚ) ≤ r.contributionShare then "risk" else "warning",
   "Bus factor risk: " ++ r.filePath ++ " is dominated by " ++ r.contributorName ++
     " (" ++ formatPercent r.contributionShare ++ " of changes)."⟩

/-- The bus-factor loop of `generateInsights` (lines 102–127): iterate the
ordered rows, consider only the first row per file (`seenFiles`), emit when
both thresholds are met, and break once the per-category cap is reached
(`maxPerCategory > 0 && busFactorCount >= maxPerCategory`, checked after
each considered row). -/
def busFactorLoop (touchThr : ℤ) (shareThr : ℚ) (cap : ℤ) :
    List BusOwnershipRow → List String → ℤ → List InsightRec
  | [], _, _ => []
  | r :: rest, seen, count =>
      if r.filePath ∈ seen then busFactorLoop touchThr shareThr cap rest seen count
      else
        let emit := busQualifies touchThr shareThr r
        let count' := if emit then count + 1 else count
        (if emit then [mkBusInsight r] else []) ++
          (if 0 < cap ∧ cap ≤ count' then []
           else busFactorLoop touchThr shareThr cap rest (r.filePath :: seen) count')

/-- The bus-factor insights emitted for the ordered ownership rows. -/
def busFactorInsights (rows : List BusOwnershipRow) (touchThr : ℤ) (shareThr : ℚ)
    (cap : ℤ) : List InsightRec :=
  busFactorLoop touchThr shareThr cap rows [] 0

/-- Specification-side view: the first row of each file in iteration order
(the considered row for that file). -/
def dedupByFile : List BusOwnershipRow → List String → List BusOwnershipRow
  | [], _ => []
  | r :: rest, seen =>
      if r.filePath ∈ seen then dedupByFile rest seen
      else r :: dedupByFile rest (r.filePath :: seen)

/-- Specification-side view: the prefix of the considered rows the loop
actually reaches before the per-category cap stops it. -/
def considerUntilCap (touchThr : ℤ) (shareThr : ℚ) (cap : ℤ) :
    List BusOwnershipRow → ℤ → List BusOwnershipRow
  | [], _ => []
  | r :: rest, count =>
      let count' := if busQualifies touchThr shareThr r then count + 1 else count
      if 0 < cap ∧ cap ≤ count' then [r]
      else r :: considerUntilCap touchThr shareThr cap rest count'

theorem busFactorLoop_characterization (touchThr : ℤ) (shareThr : ℚ) (cap : ℤ) :
    ∀ (l : List BusOwnershipRow) (seen : List String) (count : ℤ),
      busFactorLoop touchThr shareThr cap l seen count =
        ((considerUntilCap touchThr shareThr cap (dedupByFile l seen) count).filter
          (busQualifies touchThr shareThr)).map mkBusInsight := by
  intro l
  induction l with
  | nil =>
      intro seen count
      simp [busFactorLoop, dedupByFile, considerUntilCap]
  | cons r rest ih =>
      intro seen count
      rw [busFactorLoop, dedupByFile]
      by_cases hseen : r.filePath ∈ seen
      · rw [if_pos hseen, if_pos hseen]
        exact ih seen count
      · rw [if_neg hseen, if_neg hseen]
        rw [considerUntilCap]
        by_cases hemit : busQualifies touchThr shareThr r = true
        · simp only [hemit, if_true]
          by_cases hbreak : 0 < cap ∧ cap ≤ count + 1
          · rw [if_pos hbreak, if_pos hbreak]
            simp [List.filter, hemit]
          · rw [if_neg hbreak, if_neg hbreak]
            rw [ih (r.filePath :: seen) (count + 1), List.filter_cons]
            simp [hemit]
        · simp only [Bool.not_eq_true] at hemit
          simp only [hemit, if_false, Bool.false_eq_true]
          by_cases hbreak : 0 < cap ∧ cap ≤ count
          · rw [if_pos hbreak, if_pos hbreak]
            simp [List.filter, hemit]
          · rw [if_neg hbreak, if_neg hbreak]
            rw [ih (r.filePath :: seen) count, List.filter_cons]
            simp [hemit]

theorem mem_dedupByFile_not_seen (l : List BusOwnershipRow) :
    ∀ (seen : List String) (r : BusOwnershipRow),
      r ∈ dedupByFile l seen → r.filePath ∉ seen := by
  induction l with
  | nil =>
      intro seen r h
      simp [dedupByFile] at h
  | cons x rest ih =>
      intro seen r h
      rw [dedupByFile] at h
      by_cases hx : x.filePath ∈ seen
      · rw [if_pos hx] at h
        exact ih seen r h
      · rw [if_neg hx] at h
        rcases List.mem_cons.mp h with rfl | hm
        · exact hx
        · have := ih _ r hm
          intro hcon
          exact this (List.mem_cons_of_mem _ hcon)

theorem dedupByFile_top_share (l : List BusOwnershipRow)
    (hsorted : l.Pairwise (fun a b =>
      a.filePath = b.filePath → b.contributionShare ≤ a.contributionShare)) :
    ∀ (seen : List String) (r : BusOwnershipRow), r ∈ dedupByFile l seen →
      ∀ q ∈ l, q.filePath = r.filePath → q.contributionShare ≤ r.contributionShare := by
  induction l with
  | nil =>
      intro seen r h
      simp [dedupByFile] at h
  | cons x rest ih =>
      intro seen r h q hq hqf
      rw [dedupByFile] at h
      have hpw := List.pairwise_cons.mp hsorted
      by_cases hx : x.filePath ∈ seen
      · rw [if_pos hx] at h
        rcases List.mem_cons.mp hq with rfl | hq'
        · have := mem_dedupByFile_not_seen rest seen r h
          rw [hqf] at hx
          exact absurd hx this
        · exact ih hpw.2 seen r h q hq' hqf
      · rw [if_neg hx] at h
        rcases List.mem_cons.mp h with rfl | hr
        · rcases List.mem_cons.mp hq with rfl | hq'
          · exact le_refl _
          · exact hpw.1 q hq' hqf.symm
        · rcases List.mem_cons.mp hq with rfl | hq'
          · have := mem_dedupByFile_not_seen rest (q.filePath :: seen) r hr
            exact absurd (hqf ▸ List.mem_cons_self _ _) this
          · exact ih hpw.2 _ r hr q hq' hqf

/-- Claim C5: over the ownership rows ordered by file and descending share
(per-file shares descending, as the SQL `ORDER BY` guarantees), the emitted
bus-factor insights are exactly one per considered file — the first
(highest-share) row per file, up to the per-category cap — that meets
**both** the touch threshold and the share threshold; an emitted insight
has severity "risk" exactly when the share is ≥ 0.85, otherwise "warning";
and each considered row carries the maximal share among its file's rows. -/
theorem busFactor_iff_thresholds (rows : List BusOwnershipRow)
    (touchThr : ℤ) (shareThr : ℚ) (cap : ℤ)
    (hsorted : rows.Pairwise (fun a b =>
      a.filePath = b.filePath → b.contributionShare ≤ a.contributionShare)) :
    busFactorInsights rows touchThr shareThr cap =
      ((considerUntilCap touchThr shareThr cap (dedupByFile rows []) 0).filter
        (busQualifies touchThr shareThr)).map mkBusInsight ∧
    (∀ r : BusOwnershipRow,
      ((mkBusInsight r).severity = "risk" ↔ (0.85 : ℚ) ≤ r.contributionShare)) ∧
    (∀ r ∈ dedupByFile rows [], ∀ q ∈ rows,
      q.filePath = r.filePath → q.contributionShare ≤ r.contributionShare) := by
  refine ⟨busFactorLoop_characterization touchThr shareThr cap rows [] 0, ?_, ?_⟩
  · intro r
    unfold mkBusInsight
    by_cases hc : (0.85 : ℚ) ≤ r.contributionShare
    · rw [if_pos hc]
      exact ⟨fun _ => hc, fun _ => rfl⟩
    · rw [if_neg hc]
      exact ⟨fun h => absurd (show ("warning" : String) = "risk" from h) (by decide),
             fun h => absurd h hc⟩
  · exact dedupByFile_top_share rows hsorted []

/-- The rows used by the claim C5 witness: two files — one meets both
thresholds, one meets only the share threshold. -/
def busWitnessRows : List BusOwnershipRow :=
  [⟨"a.js", 0.9, "alice", 20⟩, ⟨"a.js", 0.1, "bob", 20⟩, ⟨"b.js", 0.8, "bob", 3⟩]

/-- Claim C5, witness: instantiation on `busWitnessRows` ("risk" at share
0.9 ≥ 0.85 on the emitted file). -/
theorem busFactor_iff_thresholds_witness :
    busFactorInsights busWitnessRows 10 0.7 5 =
      ((considerUntilCap 10 0.7 5 (dedupByFile busWitnessRows []) 0).filter
        (busQualifies 10 0.7)).map mkBusInsight ∧
    (∀ r : BusOwnershipRow,
      ((mkBusInsight r).severity = "risk" ↔ (0.85 : ℚ) ≤ r.contributionShare)) ∧
    (∀ r ∈ dedupByFile busWitnessRows [], ∀ q ∈ busWitnessRows,
        q.filePath = r.filePath → q.contributionShare ≤ r.contributionShare) :=
  busFactor_iff_thresholds busWitnessRows 10 0.7 5 (by
    unfold busWitnessRows
    refine List.Pairwise.cons ?_ (List.Pairwise.cons ?_ (List.Pairwise.cons ?_ List.Pairwise.nil))
    · intro q hq
      rcases List.mem_cons.mp hq with rfl | hq
      · intro _
        norm_num
      · rcases List.mem_cons.mp hq with rfl | hq
        · intro h
          exact absurd h (by decide)
        · cases hq
    · intro q hq
      rcases List.mem_cons.mp hq with rfl | hq
      · intro h
        exact absurd h (by decide)
      · cases hq
    · intro q hq
      cases hq)

/-! ## Quality scanner grading — src/services/quality.ts -/

inductive QSeverity where
  | info
  | warning
  | error
deriving DecidableEq

inductive QCategory where
  | bug
  | security
  | code_smell
  | performance
deriving DecidableEq

/-- A `QualityFinding` of quality.ts. -/
structure QualityFinding where
  file_path : String
  line_start : ℕ
  line_end : Option ℕ
  rule_id : String
  severity : QSeverity
  category : QCategory
  message : String
  language : Option String
deriving DecidableEq

/-- `Math.max(linesAnalyzed, 1)`. -/
def safeLinesOf (linesAnalyzed : ℕ) : ℕ := max linesAnalyzed 1

/-- `safeLines / 1000`. -/
def klocOf (linesAnalyzed : ℕ) : ℚ := (safeLinesOf linesAnalyzed : ℚ) / 1000

def bugCountOf (findings : List QualityFinding) : ℕ :=
  (findings.filter (·.category = QCategory.bug)).length

def securityCountOf (findings : List QualityFinding) : ℕ :=
  (findings.filter (·.category = QCategory.security)).length

def smellCountOf (findings : List QualityFinding) : ℕ :=
  (findings.filter (·.category = QCategory.code_smell)).length

def bugsPerOf (findings : List QualityFinding) (linesAnalyzed : ℕ) : ℚ :=
  (bugCountOf findings : ℚ) / klocOf linesAnalyzed

def securityPerOf (findings : List QualityFinding) (linesAnalyzed : ℕ) : ℚ :=
  (securityCountOf findings : ℚ) / klocOf linesAnalyzed

def smellsPerOf (findings : List QualityFinding) (linesAnalyzed : ℕ) : ℚ :=
  (smellCountOf findings : ℚ) / klocOf linesAnalyzed

/-- `computeQualityGrade(findings, linesAnalyzed)` from quality.ts: the
A–F grade from findings-per-KLOC thresholds on bug, security and code-smell
counts. -/
def computeQualityGrade (findings : List QualityFinding) (linesAnalyzed : ℕ) :
    String :=
  let bugsPer := bugsPerOf findings linesAnalyzed
  let securityPer := securityPerOf findings linesAnalyzed
  let smellsPer := smellsPerOf findings linesAnalyzed
  if bugsPer ≤ 1 ∧ securityPer = 0 ∧ smellsPer ≤ 5 then "A"
  else if bugsPer ≤ 3 ∧ securityPer ≤ 1 ∧ smellsPer ≤ 15 then "B"
  else if bugsPer ≤ 5 ∧ securityPer ≤ 3 ∧ smellsPer ≤ 30 then "C"
  else if bugsPer ≤ 10 ∧ securityPer ≤ 5 ∧ smellsPer ≤ 50 then "D"
  else "F"

theorem klocOf_pos (n : ℕ) : 0 < klocOf n := by
  unfold klocOf safeLinesOf
  have : (1 : ℚ) ≤ ((max n 1 : ℕ) : ℚ) := by
    have : 1 ≤ max n 1 := le_max_right _ _
    exact_mod_cast this
  positivity

/-- Claim C6: with zero bug findings and zero security findings, a finding
set whose smells-per-KLOC is exactly 5 grades "A"; adding one more
code-smell finding (all else equal) pushes smells-per-KLOC above 5 and the
grade drops to exactly "B". -/
theorem qualityGrade_A_boundary (findings : List QualityFinding)
    (linesAnalyzed : ℕ) (extra : QualityFinding)
    (hbug : bugCountOf findings = 0)
    (hsec : securityCountOf findings = 0)
    (hsmell : smellsPerOf findings linesAnalyzed = 5)
    (hextra : extra.category = QCategory.code_smell) :
    computeQualityGrade findings linesAnalyzed = "A" ∧
      5 < smellsPerOf (extra :: findings) linesAnalyzed ∧
      computeQualityGrade (extra :: findings) linesAnalyzed = "B" := by
  have hk := klocOf_pos linesAnalyzed
  have hcounts_extra :
      bugCountOf (extra :: findings) = bugCountOf findings ∧
      securityCountOf (extra :: findings) = securityCountOf findings ∧
      smellCountOf (extra :: findings) = smellCountOf findings + 1 := by
    refine ⟨?_, ?_, ?_⟩
    · unfold bugCountOf
      rw [List.filter_cons]
      have : ¬(extra.category = QCategory.bug) := by rw [hextra]; intro h; cases h
      simp [this]
    · unfold securityCountOf
      rw [List.filter_cons]
      have : ¬(extra.category = QCategory.security) := by rw [hextra]; intro h; cases h
      simp [this]
    · unfold smellCountOf
      rw [List.filter_cons]
      simp [hextra]
  have hbugsPer : bugsPerOf findings linesAnalyzed = 0 := by
    unfold bugsPerOf
    rw [hbug]
    simp
  have hsecPer : securityPerOf findings linesAnalyzed = 0 := by
    unfold securityPerOf
    rw [hsec]
    simp
  -- smell count is 5 × kloc, a positive integer, so kloc ≥ 1/5
  have hsmellcount : (smellCountOf findings : ℚ) = 5 * klocOf linesAnalyzed := by
    unfold smellsPerOf at hsmell
    field_simp at hsmell
    linarith
  have hsmellpos : 1 ≤ smellCountOf findings := by
    by_contra hcon
    push_neg at hcon
    have h0 : smellCountOf findings = 0 := by omega
    rw [h0] at hsmellcount
    simp at hsmellcount
    linarith
  have hinv : (1 : ℚ) / klocOf linesAnalyzed ≤ 5 := by
    rw [div_le_iff₀ hk]
    have h5 : (1 : ℚ) ≤ (smellCountOf findings : ℚ) := by exact_mod_cast hsmellpos
    linarith [hsmellcount]
  have hsmell' : smellsPerOf (extra :: findings) linesAnalyzed =
      5 + 1 / klocOf linesAnalyzed := by
    unfold smellsPerOf
    rw [hcounts_extra.2.2]
    push_cast
    rw [add_div, hsmellcount]
    field_simp
  refine ⟨?_, ?_, ?_⟩
  · unfold computeQualityGrade
    rw [if_pos]
    exact ⟨by rw [hbugsPer]; norm_num, hsecPer, le_of_eq hsmell⟩
  · rw [hsmell']
    have : 0 < 1 / klocOf linesAnalyzed := by positivity
    linarith
  · unfold computeQualityGrade
    have hbugsPer' : bugsPerOf (extra :: findings) linesAnalyzed = 0 := by
      unfold bugsPerOf
      rw [hcounts_extra.1, hbug]
      simp
    have hsecPer' : securityPerOf (extra :: findings) linesAnalyzed = 0 := by
      unfold securityPerOf
      rw [hcounts_extra.2.1, hsec]
      simp
    rw [if_neg, if_pos]
    · refine ⟨by rw [hbugsPer']; norm_num, by rw [hsecPer']; norm_num, ?_⟩
      rw [hsmell']
      linarith
    · intro hcon
      have := hcon.2.2
      rw [hsmell'] at this
      have hpos : 0 < 1 / klocOf linesAnalyzed := by positivity
      linarith

/-- A concrete code-smell finding for the claim C6 witness. -/
def smellFinding : QualityFinding :=
  ⟨"a.js", 1, some 1, "todo-fixme", QSeverity.info, QCategory.code_smell,
   "TODO/FIXME markers present.", some "javascript"⟩

/-- Claim C6, witness: 5 smell findings over 1000 lines sit exactly at
5 smells/KLOC and grade "A"; a 6th smell drops the grade to "B". -/
theorem qualityGrade_A_boundary_witness :
    computeQualityGrade
        [smellFinding, smellFinding, smellFinding, smellFinding, smellFinding]
        1000 = "A" ∧
      5 < smellsPerOf (smellFinding ::
        [smellFinding, smellFinding, smellFinding, smellFinding, smellFinding])
        1000 ∧
      computeQualityGrade (smellFinding ::
        [smellFinding, smellFinding, smellFinding, smellFinding, smellFinding])
        1000 = "B" :=
  qualityGrade_A_boundary
    [smellFinding, smellFinding, smellFinding, smellFinding, smellFinding]
    1000 smellFinding (by decide) (by decide)
    (by
      unfold smellsPerOf smellCountOf klocOf safeLinesOf smellFinding
      norm_num)
    (by decide)

/-! ## Orchestration of the quality scan — src/services/analysis.ts and
src/services/quality.ts

The analysis pipeline is sequenced with `await`; each step either succeeds
or throws, modelled as `Except String`.  The outcomes of the individual
steps (all I/O-driven) are supplied as oracle parameters; the persisted
`quality_runs` table is explicit state. -/

inductive QRunStatus where
  | running
  | succeeded
  | failed
deriving DecidableEq

/-- A `quality_runs` row (fields the scanner writes). -/
structure QualityRunRec where
  id : ℕ
  status : QRunStatus
  errorMessage : Option String
  filesAnalyzed : Option ℕ
  linesAnalyzed : Option ℕ
  grade : Option String
deriving DecidableEq

/-- The `quality_runs` table; ids are DB-generated, modelled as a counter. -/
structure QualityDB where
  runs : List QualityRunRec
  nextId : ℕ
deriving DecidableEq

/-- Result of the scanning portion of `executeQualityAnalysis`. -/
structure ScanResult where
  filesAnalyzed : ℕ
  linesAnalyzed : ℕ
  grade : String
deriving DecidableEq

/-- The run result of `runAnalysis` (`AnalysisSummary`). -/
structure AnalysisSummary where
  repositoryId : String
  defaultBranch : String
  commitCount : ℕ
  fileChangeCount : ℕ
deriving DecidableEq

/-- `insertQualityRun`: insert a new run in `running` state, returning its id. -/
def insertQualityRun (db : QualityDB) : QualityDB × ℕ :=
  (⟨db.runs ++ [⟨db.nextId, QRunStatus.running, none, none, none, none⟩],
    db.nextId + 1⟩, db.nextId)

/-- `failQualityRun`: mark the given run failed with the error message. -/
def failQualityRun (db : QualityDB) (runId : ℕ) (message : String) : QualityDB :=
  ⟨db.runs.map (fun r =>
      if r.id = runId
      then ⟨r.id, QRunStatus.failed, some message, r.filesAnalyzed,
            r.linesAnalyzed, r.grade⟩
      else r),
   db.nextId⟩

/-- `completeQualityRun`: mark the given run succeeded with its stats. -/
def completeQualityRun (db : QualityDB) (runId : ℕ) (res : ScanResult) : QualityDB :=
  ⟨db.runs.map (fun r =>
      if r.id = runId
      then ⟨r.id, QRunStatus.succeeded, none, some res.filesAnalyzed,
            some res.linesAnalyzed, some res.grade⟩
      else r),
   db.nextId⟩

/-- `executeQualityAnalysis`: run the scan (outcome supplied by the `scan`
oracle); on success complete the run, on error mark the run failed with the
error message and re-throw. -/
def executeQualityAnalysis (runId : ℕ) (scan : Except String ScanResult)
    (db : QualityDB) : QualityDB × Except String ScanResult :=
  match scan with
  | Except.ok res => (completeQualityRun db runId res, Except.ok res)
  | Except.error e => (failQualityRun db runId e, Except.error e)

/-- `runQualityAnalysis`: create the run record, then execute. -/
def runQualityAnalysis (scan : Except String ScanResult) (db : QualityDB) :
    QualityDB × Except String ScanResult :=
  let created := insertQualityRun db
  executeQualityAnalysis created.2 scan created.1

/-- `runAnalysis`: ingestion, metrics, ownership, complexity, insights and
the repository timestamp touch are fail-fast (`await` without catch); the
quality analysis is wrapped in `try { … } catch { console.warn(…) }`, so its
error never escapes and the summary is still returned. -/
def runAnalysis (ingestion : Except String AnalysisSummary)
    (metrics ownership complexity insights touchRepo : Except String Unit)
    (scan : Except String ScanResult) (db : QualityDB) :
    QualityDB × Except String AnalysisSummary :=
  match ingestion with
  | Except.error e => (db, Except.error e)
  | Except.ok summary =>
    match metrics with
    | Except.error e => (db, Except.error e)
    | Except.ok _ =>
      match ownership with
      | Except.error e => (db, Except.error e)
      | Except.ok _ =>
        match complexity with
        | Except.error e => (db, Except.error e)
        | Except.ok _ =>
          match insights with
          | Except.error e => (db, Except.error e)
          | Except.ok _ =>
            match touchRepo with
            | Except.error e => (db, Except.error e)
            | Except.ok _ =>
              let quality := runQualityAnalysis scan db
              (quality.1, Except.ok summary)

/-- Claim C7: when the quality scanner throws during an analysis run, the
run still completes and returns its summary (the error is caught at the
orchestration call site); the scanner marks exactly its own fresh
QualityRun row as failed with the error message — every pre-existing row is
untouched — and re-throws to its immediate caller. -/
theorem qualityFailure_does_not_fail_run (db : QualityDB)
    (summary : AnalysisSummary) (e : String)
    (hfresh : ∀ r ∈ db.runs, r.id ≠ db.nextId) :
    runAnalysis (Except.ok summary) (Except.ok ()) (Except.ok ()) (Except.ok ())
        (Except.ok ()) (Except.ok ()) (Except.error e) db =
      (⟨db.runs ++ [⟨db.nextId, QRunStatus.failed, some e, none, none, none⟩],
        db.nextId + 1⟩, Except.ok summary) ∧
    (runQualityAnalysis (Except.error e) db).2 = Except.error e := by
  have hmap : (db.runs ++
      [(⟨db.nextId, QRunStatus.running, none, none, none, none⟩ : QualityRunRec)]).map
        (fun r => if r.id = db.nextId
          then (⟨r.id, QRunStatus.failed, some e, r.filesAnalyzed,
                r.linesAnalyzed, r.grade⟩ : QualityRunRec)
          else r) =
      db.runs ++ [⟨db.nextId, QRunStatus.failed, some e, none, none, none⟩] := by
    rw [List.map_append]
    congr 1
    · calc (db.runs.map (fun r => if r.id = db.nextId
            then (⟨r.id, QRunStatus.failed, some e, r.filesAnalyzed,
                  r.linesAnalyzed, r.grade⟩ : QualityRunRec)
            else r))
          = db.runs.map id := by
            apply List.map_congr_left
            intro r hr
            rw [if_neg (hfresh r hr)]
            rfl
        _ = db.runs := List.map_id _
    · simp
  constructor
  · unfold runAnalysis runQualityAnalysis executeQualityAnalysis insertQualityRun
      failQualityRun
    simp only []
    rw [Prod.mk.injEq]
    refine ⟨?_, rfl⟩
    rw [QualityDB.mk.injEq]
    exact ⟨hmap, rfl⟩
  · rfl

/-- Claim C7, witness: a database with one prior (succeeded) quality run —
the failing scan appends a failed run, leaves the prior run untouched, and
the summary is still returned. -/
theorem qualityFailure_does_not_fail_run_witness :
    runAnalysis (Except.ok ⟨"repo-1", "main", 3, 4⟩) (Except.ok ()) (Except.ok ())
        (Except.ok ()) (Except.ok ()) (Except.ok ()) (Except.error "scan blew up")
        ⟨[⟨0, QRunStatus.succeeded, none, some 2, some 10, some "A"⟩], 1⟩ =
      (⟨[⟨0, QRunStatus.succeeded, none, some 2, some 10, some "A"⟩,
         ⟨1, QRunStatus.failed, some "scan blew up", none, none, none⟩], 2⟩,
       Except.ok ⟨"repo-1", "main", 3, 4⟩) ∧
    (runQualityAnalysis (Except.error "scan blew up")
        ⟨[⟨0, QRunStatus.succeeded, none, some 2, some 10, some "A"⟩], 1⟩).2 =
      Except.error "scan blew up" :=
  qualityFailure_does_not_fail_run
    ⟨[⟨0, QRunStatus.succeeded, none, some 2, some 10, some "A"⟩], 1⟩
    ⟨"repo-1", "main", 3, 4⟩ "scan blew up" (by decide)

/-! ## Insert-or-ignore ingestion persistence — src/lib/commits.ts

`insertCommits` and `insertFileChanges` issue `INSERT … ON CONFLICT DO
NOTHING` against the unique keys `(repository_id, sha)` and
`(commit_id, file_path)`.  The batched inserts are modelled row by row
(chunking groups rows into statements but conflicts are still resolved per
row in order, so the resulting table state is the same). -/

/-- A persisted `commits` row (fields written by `insertCommits`). -/
structure CommitRowDB where
  id : ℕ
  repositoryId : String
  sha : String
  authorName : String
  authorEmail : String
  committedAt : String
  message : String
  classification : String
deriving DecidableEq

/-- A `CommitInsert` of src/lib/commits.ts. -/
structure CommitInsertRec where
  sha : String
  authorName : String
  authorEmail : String
  committedAt : String
  message : String
  classification : String
deriving DecidableEq

/-- The `commits` table (ids are DB-generated, modelled as a counter). -/
structure CommitsTable where
  rows : List CommitRowDB
  nextId : ℕ
deriving DecidableEq

/-- Insert one commit with `ON CONFLICT DO NOTHING` on
`(repository_id, sha)`. -/
def insertCommitRow (repositoryId : String) (t : CommitsTable)
    (c : CommitInsertRec) : CommitsTable :=
  if t.rows.any (fun r => r.repositoryId = repositoryId ∧ r.sha = c.sha) then t
  else ⟨t.rows ++ [⟨t.nextId, repositoryId, c.sha, c.authorName, c.authorEmail,
        c.committedAt, c.message, c.classification⟩], t.nextId + 1⟩

/-- `insertCommits(repositoryId, commits)` (table-state part). -/
def insertCommits (repositoryId : String) (commits : List CommitInsertRec)
    (t : CommitsTable) : CommitsTable :=
  commits.foldl (insertCommitRow repositoryId) t

/-- A persisted `file_changes` row. -/
structure FileChangeRowDB where
  id : ℕ
  commitId : ℕ
  filePath : String
  additions : ℕ
  deletions : ℕ
deriving DecidableEq

/-- A `FileChangeInsert` of src/lib/commits.ts. -/
structure FileChangeInsertRec where
  commitId : ℕ
  filePath : String
  additions : ℕ
  deletions : ℕ
deriving DecidableEq

/-- The `file_changes` table. -/
structure FileChangesTable where
  rows : List FileChangeRowDB
  nextId : ℕ
deriving DecidableEq

/-- Insert one file change with `ON CONFLICT DO NOTHING` on
`(commit_id, file_path)`. -/
def insertFileChangeRow (t : FileChangesTable) (c : FileChangeInsertRec) :
    FileChangesTable :=
  if t.rows.any (fun r => r.commitId = c.commitId ∧ r.filePath = c.filePath) then t
  else ⟨t.rows ++ [⟨t.nextId, c.commitId, c.filePath, c.additions, c.deletions⟩],
        t.nextId + 1⟩

/-- `insertFileChanges(fileChanges)` (table-state part). -/
def insertFileChanges (fileChanges : List FileChangeInsertRec)
    (t : FileChangesTable) : FileChangesTable :=
  fileChanges.foldl insertFileChangeRow t

theorem foldl_insert_idem {T R : Type} (f : T → R → T) (P : R → T → Prop)
    (hmk : ∀ t r, P r (f t r))
    (hkeep : ∀ t r q, P r t → P r (f t q))
    (hnoop : ∀ t r, P r t → f t r = t) :
    ∀ (l : List R) (t : T), l.foldl f (l.foldl f t) = l.foldl f t := by
  -- helper: presence is preserved along a fold
  have hkeepFold : ∀ (l : List R) (t : T) (r : R), P r t → P r (l.foldl f t) := by
    intro l
    induction l with
    | nil => intro t r h; exact h
    | cons x xs ih =>
        intro t r h
        rw [List.foldl_cons]
        exact ih _ r (hkeep t r x h)
  -- helper: after a fold, every folded row is present
  have hallPresent : ∀ (l : List R) (t : T), ∀ r ∈ l, P r (l.foldl f t) := by
    intro l
    induction l with
    | nil => intro t r h; cases h
    | cons x xs ih =>
        intro t r h
        rw [List.foldl_cons]
        rcases List.mem_cons.mp h with rfl | hm
        · exact hkeepFold xs _ r (hmk t r)
        · exact ih _ r hm
  -- helper: folding rows that are all present is a no-op
  have hnoopFold : ∀ (l : List R) (t : T), (∀ r ∈ l, P r t) → l.foldl f t = t := by
    intro l
    induction l with
    | nil => intro t _; rfl
    | cons x xs ih =>
        intro t h
        rw [List.foldl_cons, hnoop t x (h x (List.mem_cons_self _ _))]
        exact ih t (fun r hr => h r (List.mem_cons_of_mem _ hr))
  intro l t
  exact hnoopFold l _ (hallPresent l t)

theorem commitKey_present_keep (repositoryId : String) (t : CommitsTable)
    (r q : CommitInsertRec)
    (h : t.rows.any (fun row => row.repositoryId = repositoryId ∧ row.sha = r.sha)) :
    ((insertCommitRow repositoryId t q).rows.any
      (fun row => row.repositoryId = repositoryId ∧ row.sha = r.sha)) := by
  unfold insertCommitRow
  split
  · exact h
  · rw [List.any_append]
    rw [h]
    rfl

/-- Claim C8 (commits half, as a standalone lemma used below): re-running
`insertCommits` with the same rows on the state it produced is a no-op. -/
theorem insertCommits_idem (repositoryId : String) (commits : List CommitInsertRec)
    (t : CommitsTable) :
    insertCommits repositoryId commits (insertCommits repositoryId commits t) =
      insertCommits repositoryId commits t := by
  unfold insertCommits
  have h := foldl_insert_idem (insertCommitRow repositoryId)
    (fun c tb => (tb.rows.any
      (fun row => row.repositoryId = repositoryId ∧ row.sha = c.sha)) = true)
    (by
      intro tb c
      unfold insertCommitRow
      split
      · assumption
      · rw [List.any_append]
        simp)
    (by
      intro tb c q h
      exact commitKey_present_keep repositoryId tb c q h)
    (by
      intro tb c h
      unfold insertCommitRow
      rw [if_pos h])
    commits t
  simpa using h

theorem fileChangeKey_present_keep (t : FileChangesTable)
    (r q : FileChangeInsertRec)
    (h : t.rows.any (fun row => row.commitId = r.commitId ∧ row.filePath = r.filePath)) :
    ((insertFileChangeRow t q).rows.any
      (fun row => row.commitId = r.commitId ∧ row.filePath = r.filePath)) := by
  unfold insertFileChangeRow
  split
  · exact h
  · rw [List.any_append]
    rw [h]
    rfl

/-- Claim C8: ingesting the same commit and file-change sequences a second
time, against state already containing them, leaves the `commits` and
`file_changes` tables (hence their row counts) identical — conflicts on
`(repository_id, sha)` and `(commit_id, file_path)` are no-ops. -/
theorem ingestion_idempotent (repositoryId : String)
    (commits : List CommitInsertRec) (fileChanges : List FileChangeInsertRec)
    (tc : CommitsTable) (tf : FileChangesTable) :
    insertCommits repositoryId commits (insertCommits repositoryId commits tc) =
        insertCommits repositoryId commits tc ∧
      (insertCommits repositoryId commits
          (insertCommits repositoryId commits tc)).rows.length =
        (insertCommits repositoryId commits tc).rows.length ∧
      insertFileChanges fileChanges (insertFileChanges fileChanges tf) =
        insertFileChanges fileChanges tf ∧
      (insertFileChanges fileChanges
          (insertFileChanges fileChanges tf)).rows.length =
        (insertFileChanges fileChanges tf).rows.length := by
  have hc := insertCommits_idem repositoryId commits tc
  have hf : insertFileChanges fileChanges (insertFileChanges fileChanges tf) =
      insertFileChanges fileChanges tf := by
    unfold insertFileChanges
    have h := foldl_insert_idem insertFileChangeRow
      (fun c tb => (tb.rows.any
        (fun row => row.commitId = c.commitId ∧ row.filePath = c.filePath)) = true)
      (by
        intro tb c
        unfold insertFileChangeRow
        split
        · assumption
        · rw [List.any_append]
          simp)
      (by
        intro tb c q h
        exact fileChangeKey_present_keep tb c q h)
      (by
        intro tb c h
        unfold insertFileChangeRow
        rw [if_pos h])
      fileChanges tf
    simpa using h
  exact ⟨hc, by rw [hc], hf, by rw [hf]⟩

/-! ## Analysis-run status transition — src/lib/analysisRuns.ts -/

inductive RunStatus where
  | queued
  | running
  | succeeded
  | failed
deriving DecidableEq

/-- An `analysis_runs` row (status fields touched by
`updateAnalysisRunStatus`); timestamps are abstract instants. -/
structure AnalysisRunRec where
  status : RunStatus
  startedAt : Option ℕ
  completedAt : Option ℕ
  errorMessage : Option String
deriving DecidableEq

/-- `updateAnalysisRunStatus(runId, status, errorMessage)` applied to the
run's row; `now` is the database clock.  `running` sets
`started_at = COALESCE(started_at, now())`; `succeeded` sets
`completed_at = now()` and clears the error; any other target status sets
`completed_at = now()` and stores the error message.  No branch inspects
the current status. -/
def updateAnalysisRunStatus (run : AnalysisRunRec) (status : RunStatus)
    (errorMessage : Option String) (now : ℕ) : AnalysisRunRec :=
  match status with
  | RunStatus.running =>
      ⟨RunStatus.running, some (run.startedAt.getD now), run.completedAt,
       run.errorMessage⟩
  | RunStatus.succeeded =>
      ⟨RunStatus.succeeded, run.startedAt, some now, none⟩
  | other =>
      ⟨other, run.startedAt, some now, errorMessage⟩

/-- Claim C9, counterexample: a terminal (succeeded) run is **not**
immutable — a subsequent transition to `failed` overwrites its status,
its completion timestamp and its error message. -/
theorem terminalRun_not_immutable :
    updateAnalysisRunStatus ⟨RunStatus.succeeded, some 1, some 2, none⟩
        RunStatus.failed (some "boom") 5 =
      ⟨RunStatus.failed, some 1, some 5, some "boom"⟩ ∧
      (⟨RunStatus.failed, some 1, some 5, some "boom"⟩ : AnalysisRunRec) ≠
        ⟨RunStatus.succeeded, some 1, some 2, none⟩ := by
  exact ⟨rfl, by decide⟩

/-- Claim C9 (amended): `updateAnalysisRunStatus` enforces no terminal-state
immutability: for every current row — terminal or not — it unconditionally
sets the target status, and for a terminal target it overwrites
`completed_at` and `error_message`; the only write-once field is
`started_at`, which the `running` transition preserves once set
(`COALESCE(started_at, now())`).  Immutability of terminal runs is a
convention of the orchestrator's call sequence, not a property of the
operation. -/
theorem updateAnalysisRunStatus_overwrites (run : AnalysisRunRec)
    (status : RunStatus) (errorMessage : Option String) (now : ℕ) :
    (updateAnalysisRunStatus run status errorMessage now).status = status ∧
    (updateAnalysisRunStatus run RunStatus.failed errorMessage now =
      ⟨RunStatus.failed, run.startedAt, some now, errorMessage⟩) ∧
    (∀ t0 : ℕ, run.startedAt = some t0 →
      (updateAnalysisRunStatus run RunStatus.running errorMessage now).startedAt =
        some t0) := by
  refine ⟨?_, rfl, ?_⟩
  · cases status <;> rfl
  · intro t0 h
    unfold updateAnalysisRunStatus
    rw [h]
    rfl

/-- Claim C9 (amended), witness: a succeeded run with `started_at = 3` —
the `failed` transition overwrites it and the `running` transition keeps
`started_at = 3`. -/
theorem updateAnalysisRunStatus_overwrites_witness :
    (updateAnalysisRunStatus ⟨RunStatus.succeeded, some 3, some 4, none⟩
        RunStatus.failed (some "late failure") 9).status = RunStatus.failed ∧
    (updateAnalysisRunStatus ⟨RunStatus.succeeded, some 3, some 4, none⟩
        RunStatus.failed (some "late failure") 9 =
      ⟨RunStatus.failed, some 3, some 9, some "late failure"⟩) ∧
    (∀ t0 : ℕ,
      (⟨RunStatus.succeeded, some 3, some 4, none⟩ : AnalysisRunRec).startedAt = some t0 →
      (updateAnalysisRunStatus ⟨RunStatus.succeeded, some 3, some 4, none⟩
          RunStatus.running (some "late failure") 9).startedAt = some t0) :=
  updateAnalysisRunStatus_overwrites ⟨RunStatus.succeeded, some 3, some 4, none⟩
    RunStatus.failed (some "late failure") 9

end CodeArch
